import Mathlib

/-!
Verification of histocartography core components against their source.

Shallow embedding conventions:
* numpy / torch tensors over floats are modelled over `ℚ` where the code is
  pure arithmetic, and over `ℝ` where transcendental functions
  (`exp`, `log`, sigmoid, softmax, entropy) are involved;
* matrices are `List (List ℚ)` for the numpy code, and index functions
  `ℕ → ℕ → ℝ` (with explicit sizes) for the torch tensor code, where all
  claimed properties are entrywise;
* Python exceptions are modelled with `Except`;
* batch dimensions of constant size 1 (`unsqueeze(dim=0)`) are elided in the
  function-matrix model and noted where they matter.
-/

namespace graph

/-- Models the in-place update `adj[adj < threshold] = 0`
(`histocartography/utils/graph.py`, line 31): every entry strictly below the
threshold becomes 0, the others are untouched.  The result is the state of the
caller's array after the call. -/
def threshZero (adj : List (List ℚ)) (t : ℚ) : List (List ℚ) :=
  adj.map (fun row => row.map (fun v => if v < t then 0 else v))

/-- Row-major positions of the nonzero entries, as `np.nonzero(adj)` lists them
(C order). -/
def nonzeroPositions (adj : List (List ℚ)) : List (ℕ × ℕ) :=
  (adj.enum.map (fun p =>
    p.2.enum.filterMap (fun q =>
      if q.2 ≠ 0 then some (p.1, q.1) else none))).flatten

/-- Models the boolean-mask selection `adj[adj > threshold]`: the entries
strictly above the threshold, flattened in row-major order. -/
def boolMaskSelect (adj : List (List ℚ)) (t : ℚ) : List ℚ :=
  (adj.map (fun row => row.filter (fun v => t < v))).flatten

/-- A Python runtime error escaping `adj_to_networkx`. -/
inductive PyError
  | valueError   -- unpacking an array of length ≠ 2 into `(from_, to_)`
  | indexError   -- `weights[idx]` out of range
deriving DecidableEq, Repr

/-- A directed weighted graph as built by `networkx.DiGraph` plus
`add_weighted_edges_from`. -/
structure NxGraph where
  numNodes : ℕ
  edges : List (ℕ × ℕ × ℚ)
deriving DecidableEq, Repr

/-- Models `adj_to_networkx(adj, feat, threshold=t)`
(`histocartography/utils/graph.py`, lines 6-55), topology part.

The first component is the caller's `adj` array after the call (the function
mutates it in place on line 31 before anything can fail).  The second component
is the result: the source iterates
`for (idx, (from_, to_)) in enumerate(edge_list)` where
`edge_list = np.nonzero(adj)` is the *pair* `(rows, cols)` of index arrays, so
each of the two arrays is itself unpacked as an edge; this raises a
`ValueError` unless both arrays have length exactly 2, and reads
`weights[0]`, `weights[1]` from `weights = adj[adj > threshold]` (an
`IndexError` if fewer than 2 entries are strictly above the threshold).  When
it does succeed the two "edges" are `(rows[0], rows[1], weights[0])` and
`(cols[0], cols[1], weights[1])`. -/
def adj_to_networkx (adj : List (List ℚ)) (t : ℚ) :
    List (List ℚ) × Except PyError NxGraph :=
  let adj' := threshZero adj t
  let rows := (nonzeroPositions adj').map Prod.fst
  let cols := (nonzeroPositions adj').map Prod.snd
  let weights := boolMaskSelect adj' t
  let n := (adj.headD []).length
  (adj',
    if rows.length = 2 then
      if 2 ≤ weights.length then
        .ok { numNodes := n,
              edges := [(rows.getD 0 0, rows.getD 1 0, weights.getD 0 0),
                        (cols.getD 0 0, cols.getD 1 0, weights.getD 1 0)] }
      else .error .indexError
    else .error .valueError)

end graph

namespace cam

/-- `EPS = 10e-7` (`saliency_explainer/cam.py`, line 8), i.e. `10 * 10⁻⁷`. -/
def EPS : ℚ := 1 / 1000000

/-- First value of a list under `min`, as `tensor.min(...)` computes it
(0 as a junk value on the empty tensor, where torch would error). -/
def listMin : List ℚ → ℚ
  | [] => 0
  | x :: xs => xs.foldl min x

/-- Largest value of a list under `max` (0 as a junk value on `[]`). -/
def listMax : List ℚ → ℚ
  | [] => 0
  | x :: xs => xs.foldl max x

/-- Models `_LegacyCAM._normalize` (`cam.py`, lines 47-53) on a 1-D score
vector: `cams -= cams.min(-1).values` then
`cams /= cams.max(-1).values + EPS`, where the max is taken of the already
shifted tensor. -/
def normalize (cams : List ℚ) : List ℚ :=
  let shifted := cams.map (fun v => v - listMin cams)
  shifted.map (fun v => v / (listMax shifted + EPS))

/-- An exception escaping a CAM extractor call. -/
inductive CamError
  | assertionNoForward  -- the precondition `AssertionError` of `_precheck`
  | valueBatchSize      -- batch size ≠ 1 (`_LegacyCAM._precheck`)
  | valueClassIdx       -- negative `class_idx`
  | valueScores         -- `_score_used` but no scores supplied
  | attributeNone       -- `AttributeError`: `hook_a` is `None` in `compute_cams`
  | stackEmpty          -- `RuntimeError`: `torch.stack` of an empty list
deriving DecidableEq, Repr

/-- State of a `_LegacyCAM` extractor (`cam.py`, lines 11-129): `hook_a` holds
the most recent captured activation (`None` before any forward pass), shaped
`(batch, nodes, channels)`; `getWeights` is the `_get_weights` strategy a
concrete subclass supplies (the base raises `NotImplementedError`). -/
structure LegacyCAM where
  hookA : Option (List (List (List ℚ)))
  scoreUsed : Bool
  reluFlag : Bool
  getWeights : ℤ → Option (List ℚ) → Except CamError (List ℚ)

/-- Models `_LegacyCAM._precheck` (`cam.py`, lines 59-81). -/
def legacyPrecheck (st : LegacyCAM) (classIdx : ℤ) (scores : Option (List ℚ)) :
    Except CamError Unit := do
  match st.hookA with
  | none => throw .assertionNoForward
  | some a =>
    if a.length ≠ 1 then throw .valueBatchSize
    else if classIdx < 0 then throw .valueClassIdx
    else if st.scoreUsed ∧ scores = none then throw .valueScores
    else pure ()

/-- Models `_LegacyCAM.compute_cams` (`cam.py`, lines 91-126): weights first
(the strategy), then `self.hook_a.squeeze(0)` — an `AttributeError` when
`hook_a` is still `None` — then the weighted channel combination
`(weights.unsqueeze(0).repeat(N,1) * hook_a.squeeze(0)).sum(dim=1)`,
optional ReLU, optional normalization. -/
def legacyComputeCams (st : LegacyCAM) (classIdx : ℤ) (scores : Option (List ℚ))
    (normalized : Bool) : Except CamError (List ℚ) := do
  let weights ← st.getWeights classIdx scores
  match st.hookA with
  | none => throw .attributeNone
  | some a =>
    let act := a.flatten   -- squeeze(0) on a 1-sized batch
    let cams := act.map (fun row => ((weights.zip row).map (fun p => p.1 * p.2)).sum)
    let cams := if st.reluFlag then cams.map (fun v => max 0 v) else cams
    pure (if normalized then normalize cams else cams)

/-- Models `_LegacyCAM.__call__` (`cam.py`, lines 83-89): the integrity check
`self._precheck(class_idx, scores)` is commented out in the source (line 86),
so the call goes straight to `compute_cams`. -/
def legacyCall (st : LegacyCAM) (classIdx : ℤ) (scores : Option (List ℚ))
    (normalized : Bool) : Except CamError (List ℚ) :=
  legacyComputeCams st classIdx scores normalized

/-- State of a multi-layer `_CAM` extractor (`cam.py`, lines 132-245):
`__init__` sets `self.hook_a = list()` (line 141), so the buffer is
`some []` from construction on and is only ever appended to — it is never
the Python `None` (modelled by `Option.none`). -/
structure MultiCAM where
  hookA : Option (List (List (List (List ℚ))))
  scoreUsed : Bool
  reluFlag : Bool
  getWeights : ℤ → Option (List ℚ) → Except CamError (List (List ℚ))

/-- Models `_CAM._precheck` (`cam.py`, lines 179-196): the first check is
literally `if self.hook_a is None`, which can only fire if the buffer were
`None` — never the case, since it is an (initially empty) list. -/
def multiPrecheck (st : MultiCAM) (classIdx : ℤ) (scores : Option (List ℚ)) :
    Except CamError Unit := do
  match st.hookA with
  | none => throw .assertionNoForward
  | some _ =>
    if classIdx < 0 then throw .valueClassIdx
    else if st.scoreUsed ∧ scores = none then throw .valueScores
    else pure ()

/-- Models `_CAM.compute_cams` (`cam.py`, lines 206-242) up to the point a
fresh extractor can reach: `torch.stack(self.hook_a, dim=2)` raises a
`RuntimeError` when the activation list is empty.  The layer-stacked
combination itself is abstracted to the stacking step, which is all the
claims need. -/
def multiComputeCams (st : MultiCAM) (classIdx : ℤ) (scores : Option (List ℚ)) :
    Except CamError (List ℚ) := do
  let _weights ← st.getWeights classIdx scores
  match st.hookA with
  | none => throw .attributeNone
  | some buf =>
    if buf = [] then throw .stackEmpty
    else pure ((buf.headD []).flatten.map (fun row => row.sum))

/-- Models `_CAM.__call__` (`cam.py`, lines 198-204): here the precheck *is*
invoked, then `compute_cams`. -/
def multiCall (st : MultiCAM) (classIdx : ℤ) (scores : Option (List ℚ)) :
    Except CamError (List ℚ) := do
  multiPrecheck st classIdx scores
  multiComputeCams st classIdx scores

end cam

namespace evaluator

/-- Index of the first maximal entry of a row, as `torch.max(logits, dim=1)`
reports per-row arg-max indices (ties resolved to the first maximum; the
claims' inputs are tie-free). -/
def argmaxRow (row : List ℚ) : ℕ :=
  (row.enum.foldl (fun best p => if best.2 < p.2 then p else best)
    (0, row.headD 0)).1

/-- The distinct values observed among true labels and predictions, in
increasing order — the classes `sklearn.metrics.confusion_matrix` infers when
no `labels=` argument is given. -/
def observedClasses (labels preds : List ℕ) : List ℕ :=
  (List.range ((labels ++ preds).foldr max 0 + 1)).filter
    (fun c => c ∈ labels ++ preds)

/-- Models `ConfusionMatrixEvaluator.__call__` (`evaluation/evaluator.py`,
lines 31-37): predictions are the row-wise arg-max of the logits, and
`sklearn.metrics.confusion_matrix(labels, preds)` returns, for the sorted
observed classes `c₀ < c₁ < ⋯`, the matrix whose `(a, b)` entry counts the
samples with true label `c_a` and prediction `c_b`. -/
def confusionMatrix (logits : List (List ℚ)) (labels : List ℕ) : List (List ℕ) :=
  let preds := logits.map argmaxRow
  let classes := observedClasses labels preds
  classes.map (fun a => classes.map (fun b =>
    (labels.zip preds).countP (fun lp => lp.1 = a ∧ lp.2 = b)))

/-- Sum along the main diagonal of a row-list matrix, starting at column `i`. -/
def diagSum : List (List ℕ) → ℕ → ℕ
  | [], _ => 0
  | row :: rest, i => row.getD i 0 + diagSum rest (i + 1)

/-- The trace of a row-list matrix. -/
def traceM (m : List (List ℕ)) : ℕ := diagSum m 0

end evaluator

namespace explainer

/-- `ExplainerModel.sigmoid(x, t)` (`pruning_explainer/explainer_model.py`,
lines 131-133): `1 / (1 + exp(-t x))`. -/
noncomputable def sigmoidT (t x : ℝ) : ℝ := 1 / (1 + Real.exp (-t * x))

/-- The `model_params` configuration consumed by `ExplainerModel.__init__`. -/
structure ModelParams where
  mask_activation : String
  init : String
  loss_ce : ℝ
  loss_node : ℝ
  loss_node_ent : ℝ

/-- The normal-initialization standard deviation of `_build_edge_mask` /
`_build_node_mask`: `nn.init.calculate_gain("relu") * sqrt(2/(n+n))`. -/
noncomputable def initStd (n : ℕ) : ℝ :=
  Real.sqrt 2 * Real.sqrt (2 / ((n : ℝ) + (n : ℝ)))

/-- Models `_build_edge_mask(num_nodes, init_strategy)` (`explainer_model.py`,
lines 66-83).  `xi` is the stream of standard-normal draws behind
`mask.normal_(1.0, std)`; `uninit` is the uninitialized `torch.FloatTensor`
garbage left when the strategy is neither `"normal"` nor `"const"`.
`const_val` keeps its default `1.0`. -/
noncomputable def buildEdgeMask (n : ℕ) (strategy : String)
    (xi : ℕ → ℕ → ℝ) (uninit : ℕ → ℕ → ℝ) : ℕ → ℕ → ℝ :=
  if strategy = "normal" then fun i j => 1 + initStd n * xi i j
  else if strategy = "const" then fun _ _ => 1
  else uninit

/-- Models `_build_node_mask(num_nodes, init_strategy)` (`explainer_model.py`,
lines 85-95), same conventions as `buildEdgeMask`. -/
noncomputable def buildNodeMask (n : ℕ) (strategy : String)
    (xi : ℕ → ℝ) (uninit : ℕ → ℝ) : ℕ → ℝ :=
  if strategy = "normal" then fun i => 1 + initStd n * xi i
  else if strategy = "const" then fun _ => 1
  else uninit

/-- Index of the first maximal entry among the first `k` entries of `v` —
`torch.argmax(init_probs, dim=1)` on the `1×K` row `v`. -/
noncomputable def argmaxV (v : ℕ → ℝ) (k : ℕ) : ℕ :=
  (List.range k).foldl (fun best i => if v best < v i then i else best) 0

/-- State of an `ExplainerModel` (`explainer_model.py`, lines 11-61) after
construction.  Tensors are index functions with explicit sizes; the frozen
model is an opaque `(adjacency, features) ↦ logits` function; the constant
batch dimension of size 1 is elided (`init_probs` is the single `1×K` row,
logits are the single row `ypred`).  `mask_bias` is always `None` on this
configuration path (line 40) and is therefore omitted; the optimizer state is
irrelevant to the claims and omitted. -/
structure ExplainerModel where
  model : (ℕ → ℕ → ℝ) → (ℕ → ℕ → ℝ) → (ℕ → ℝ)
  adj : ℕ → ℕ → ℝ
  x : ℕ → ℕ → ℝ
  numNodes : ℕ
  numFeats : ℕ
  initProbs : ℕ → ℝ
  numClasses : ℕ
  label : ℕ
  maskAct : String
  mask : ℕ → ℕ → ℝ
  nodeMask : ℕ → ℝ
  coeffCe : ℝ
  coeffNode : ℝ
  coeffNodeEnt : ℝ

/-- Models `ExplainerModel.__init__` (`explainer_model.py`, lines 12-61) on
the CPU path.  Note the source performs *no* validation of
`model_params['mask_activation']`; the string is stored as-is (line 38) and
construction always completes.  The node mask is built with the hard-coded
strategy `'const'` (line 47), the edge mask with the configured strategy
(line 46); `xiE`/`xiN` are the respective normal-draw streams and
`uninitE`/`uninitN` the uninitialized-tensor garbage. -/
noncomputable def explainerInit
    (model : (ℕ → ℕ → ℝ) → (ℕ → ℕ → ℝ) → (ℕ → ℝ))
    (adj : ℕ → ℕ → ℝ) (x : ℕ → ℕ → ℝ) (numNodes numFeats : ℕ)
    (initProbs : ℕ → ℝ) (numClasses : ℕ) (mp : ModelParams)
    (xiE : ℕ → ℕ → ℝ) (xiN : ℕ → ℝ)
    (uninitE : ℕ → ℕ → ℝ) (uninitN : ℕ → ℝ) : ExplainerModel :=
  { model := model, adj := adj, x := x
    numNodes := numNodes, numFeats := numFeats
    initProbs := initProbs, numClasses := numClasses
    label := argmaxV initProbs numClasses
    maskAct := mp.mask_activation
    mask := buildEdgeMask numNodes mp.init xiE uninitE
    nodeMask := buildNodeMask numNodes "const" xiN uninitN
    coeffCe := mp.loss_ce, coeffNode := mp.loss_node
    coeffNodeEnt := mp.loss_node_ent }

/-- Models `_get_adj_mask(with_zeroing)` (`explainer_model.py`, lines 97-108):
activation (temperature-2 sigmoid, or ReLU), `ValueError` for any other
`mask_activation`, symmetrization `(m + mᵀ)/2`, and the optional zeroing by
the indicator of `adj != 0`.  No diagonal handling happens here. -/
noncomputable def getAdjMask (em : ExplainerModel) (withZeroing : Bool) :
    Except String (ℕ → ℕ → ℝ) :=
  match em.maskAct with
  | "sigmoid" =>
    let act := fun i j => sigmoidT 2 (em.mask i j)
    let sym := fun i j => (act i j + act j i) / 2
    .ok (if withZeroing then
          fun i j => (if em.adj i j ≠ 0 then (1 : ℝ) else 0) * sym i j
         else sym)
  | "relu" =>
    let act := fun i j => max 0 (em.mask i j)
    let sym := fun i j => (act i j + act j i) / 2
    .ok (if withZeroing then
          fun i j => (if em.adj i j ≠ 0 then (1 : ℝ) else 0) * sym i j
         else sym)
  | _ => .error "Unsupported mask activation"

/-- Models `_masked_adj` (`explainer_model.py`, lines 110-119):
`adj * sym_mask`, the dead `mask_bias` branch skipped (`mask_bias` is `None`),
then multiplication by `diag_mask = ones(n,n) - eye(n)`. -/
noncomputable def maskedAdj (em : ExplainerModel) :
    Except String (ℕ → ℕ → ℝ) := do
  let sym ← getAdjMask em false
  pure (fun i j => em.adj i j * sym i j * (1 - if i = j then (1 : ℝ) else 0))

/-- Models `_get_node_feats_mask` (`explainer_model.py`, lines 121-129):
temperature-10 sigmoid or ReLU on the raw node mask, `ValueError` otherwise. -/
noncomputable def getNodeFeatsMask (em : ExplainerModel) :
    Except String (ℕ → ℝ) :=
  match em.maskAct with
  | "sigmoid" => .ok (fun i => sigmoidT 10 (em.nodeMask i))
  | "relu" => .ok (fun i => max 0 (em.nodeMask i))
  | _ => .error "Unsupported mask activation"

/-- Models `_masked_node_feats` (`explainer_model.py`, lines 135-138): the
activated node mask is broadcast across all feature channels
(`torch.stack(F*[node_mask], dim=1)`) and multiplied into `x` entrywise. -/
noncomputable def maskedNodeFeats (em : ExplainerModel) :
    Except String (ℕ → ℕ → ℝ) := do
  let nm ← getNodeFeatsMask em
  pure (fun n c => em.x n c * nm n)

/-- Models `ExplainerModel.forward` (`explainer_model.py`, lines 140-144): the
frozen model is applied to `[self.adj, masked_x]` — the original, unmasked
adjacency — and `(ypred, masked_x)` is returned. -/
noncomputable def forwardE (em : ExplainerModel) :
    Except String ((ℕ → ℝ) × (ℕ → ℕ → ℝ)) := do
  let mx ← maskedNodeFeats em
  pure (em.model em.adj mx, mx)

/-- `softmax` over the first `k` entries of a logits row. -/
noncomputable def softmaxV (v : ℕ → ℝ) (k : ℕ) : ℕ → ℝ := fun i =>
  Real.exp (v i) / ∑ j ∈ Finset.range k, Real.exp (v j)

/-- `F.log_softmax` over the first `k` entries of a logits row. -/
noncomputable def logSoftmaxV (v : ℕ → ℝ) (k : ℕ) : ℕ → ℝ := fun i =>
  Real.log (softmaxV v k i)

/-- `F.cross_entropy(pred.unsqueeze(0), label)` for the single-sample batch:
the negative log-softmax of the labelled entry. -/
noncomputable def crossEntropyLoss (pred : ℕ → ℝ) (k : ℕ) (label : ℕ) : ℝ :=
  -(logSoftmaxV pred k label)

/-- Models `distillation_loss` (`explainer_model.py`, lines 146-149):
`-torch.mean(torch.sum(init_probs * log_softmax(logits), dim=1))`.  The sum
runs over the `K` classes; the outer mean is over the batch dimension of size
1, so the value is the negative *sum* `-∑ⱼ init_probsⱼ · log_softmax(pred)ⱼ`. -/
noncomputable def distillationLoss (em : ExplainerModel) (pred : ℕ → ℝ) : ℝ :=
  -(∑ j ∈ Finset.range em.numClasses, em.initProbs j * logSoftmaxV pred em.numClasses j)

/-- `scipy.stats.entropy` of the first `k` entries: the input is normalized to
sum 1, then `-∑ p log p` in natural log (`0 · log 0 = 0`, which `Real.log 0 = 0`
gives for free). -/
noncomputable def entropyV (p : ℕ → ℝ) (k : ℕ) : ℝ :=
  -(∑ i ∈ Finset.range k,
      (p i / ∑ j ∈ Finset.range k, p j) *
        Real.log (p i / ∑ j ∈ Finset.range k, p j))

/-- The blending weight of `ExplainerModel.loss` (lines 160-162):
`entropy(softmax(pred)) / log(init_probs.shape[1])`. -/
noncomputable def alphaE (em : ExplainerModel) (pred : ℕ → ℝ) : ℝ :=
  entropyV (softmaxV pred em.numClasses) em.numClasses /
    Real.log (em.numClasses : ℝ)

/-- Models `ExplainerModel.loss(pred)` (`explainer_model.py`, lines 151-176):
the `coeffs['ce']`-scaled entropy-blended prediction term, the node-mask
sparsity term `coeffs['node'] * sum(node_mask)`, and the node binary-entropy
term averaged over the `N` nodes.  The node-mask activation can raise the
unsupported-activation `ValueError`, hence `Except`. -/
noncomputable def lossE (em : ExplainerModel) (pred : ℕ → ℝ) :
    Except String ℝ := do
  let ceLoss := crossEntropyLoss pred em.numClasses em.label
  let dLoss := distillationLoss em pred
  let alpha := alphaE em pred
  let predLoss := em.coeffCe * (alpha * ceLoss + (1 - alpha) * dLoss)
  let nm ← getNodeFeatsMask em
  let nodeLoss := em.coeffNode * ∑ i ∈ Finset.range em.numNodes, nm i
  let nodeEnt := fun i =>
    -nm i * Real.log (nm i) - (1 - nm i) * Real.log (1 - nm i)
  let nodeEntLoss := em.coeffNodeEnt *
    ((∑ i ∈ Finset.range em.numNodes, nodeEnt i) / (em.numNodes : ℝ))
  pure (predLoss + nodeLoss + nodeEntLoss)

/-- The prediction term exactly as the spec's words for claim C3 read them,
for comparison with the source: `D` taken as the negative *mean* of the `1×K`
matrix `init_probs ⊙ log_softmax(ypred)` — i.e. the sum divided by its `K`
entries — blended as `coeffs['ce'] * (alpha * CE + (1 - alpha) * D)`. -/
noncomputable def predTermSpec (em : ExplainerModel) (pred : ℕ → ℝ) : ℝ :=
  em.coeffCe * (alphaE em pred * crossEntropyLoss pred em.numClasses em.label
    + (1 - alphaE em pred) *
      -((∑ j ∈ Finset.range em.numClasses,
          em.initProbs j * logSoftmaxV pred em.numClasses j) / (em.numClasses : ℝ)))

end explainer

namespace explainer

/-- The `pred_loss` value of `ExplainerModel.loss` (`explainer_model.py`,
line 163): `coeffs['ce'] * (alpha * ce_loss + (1 - alpha) * distillation_loss)`. -/
noncomputable def predTermCode (em : ExplainerModel) (pred : ℕ → ℝ) : ℝ :=
  em.coeffCe * (alphaE em pred * crossEntropyLoss pred em.numClasses em.label
    + (1 - alphaE em pred) * distillationLoss em pred)

/-- A concrete one-node, two-class explainer state with ReLU mask activation,
raw edge mask constantly 1, raw node mask constantly 0, `init_probs = (1, 0)`
(hence pseudo-label 0), and loss coefficients `ce = 1`, `node = 0`,
`node_ent = 0`; used as an evaluation point. -/
noncomputable def emRelu : ExplainerModel where
  model := fun _ _ _ => 0
  adj := fun _ _ => 1
  x := fun _ _ => 1
  numNodes := 1
  numFeats := 1
  initProbs := fun j => if j = 0 then 1 else 0
  numClasses := 2
  label := 0
  maskAct := "relu"
  mask := fun _ _ => 1
  nodeMask := fun _ => 0
  coeffCe := 1
  coeffNode := 0
  coeffNodeEnt := 0

/-- The concrete logits row `(log 3, 0)`, an evaluation point for the loss. -/
noncomputable def predEx : ℕ → ℝ := fun j => if j = 0 then Real.log 3 else 0

end explainer

/-! ## Claim theorems -/

/-- C1 (code bug): the claim — `adj_to_networkx(A, feat, threshold=t)` returns
a directed graph with exactly `count(A_ij > t, i≠j)` edges, no self-loops,
entries `≤ t` excluded — describes the intent, but the source unpacks the
`(rows, cols)` pair returned by `np.nonzero` as if each array were an edge.
On a matrix with 3 above-threshold entries the call raises a `ValueError`
instead of returning a 3-edge graph; and on a matrix with the 2 edges
`(0,2)` and `(1,0)` it "succeeds" with the garbled edge set
`{(0,1), (2,0)}`, neither of which is an edge of the input. -/
theorem c1_adj_to_networkx_broken_edge_build :
    (graph.adj_to_networkx [[0, 1/2, 3/5], [0, 0, 7/10], [0, 0, 0]] (1/10)).2
        = Except.error graph.PyError.valueError ∧
    (graph.adj_to_networkx [[0, 0, 1], [1, 0, 0], [0, 0, 0]] (1/10)).2
        = Except.ok ⟨3, [(0, 1, 1), (2, 0, 1)]⟩ := by
  constructor <;>
    norm_num [graph.adj_to_networkx, graph.threshZero, graph.nonzeroPositions,
      graph.boolMaskSelect, List.enum, List.enumFrom, List.filterMap]

/-- C10: `adj_to_networkx` mutates the caller's adjacency array in place
(line 31, `adj[adj < threshold] = 0`, executed before anything can fail):
afterwards every entry strictly below the threshold is 0 and every entry at
or above it is unchanged.  The first component of the model is the caller's
array after the call. -/
theorem c10_adj_mutated_in_place (adj : List (List ℚ)) (t : ℚ) (i j : ℕ) :
    ((graph.adj_to_networkx adj t).1.getD i []).getD j 0 =
      if (adj.getD i []).getD j 0 < t then 0
      else (adj.getD i []).getD j 0 := by
  have h1 : (graph.adj_to_networkx adj t).1 = graph.threshZero adj t := rfl
  rw [h1, graph.threshZero]
  have h2 : (adj.map (fun row => row.map (fun v => if v < t then 0 else v))).getD i []
      = (adj.getD i []).map (fun v => if v < t then 0 else v) := by
    simpa using List.getD_map adj [] (fun row => row.map (fun v => if v < t then 0 else v)) (n := i)
  rw [h2]
  have hf0 : (if (0 : ℚ) < t then (0 : ℚ) else 0) = 0 := ite_self 0
  calc ((adj.getD i []).map (fun v => if v < t then 0 else v)).getD j 0
      = ((adj.getD i []).map (fun v => if v < t then 0 else v)).getD j
          (if (0 : ℚ) < t then 0 else 0) := by rw [hf0]
    _ = if (adj.getD i []).getD j 0 < t then 0 else (adj.getD i []).getD j 0 :=
        List.getD_map _ 0 _

/-- C10 witness: concrete instance of the in-place thresholding theorem. -/
theorem c10_adj_mutated_in_place_witness :
    ((graph.adj_to_networkx [[0, 1]] (1/2)).1.getD 0 []).getD 1 0 =
      if (([[(0 : ℚ), 1]].getD 0 []).getD 1 0) < 1/2 then 0
      else (([[(0 : ℚ), 1]].getD 0 []).getD 1 0) :=
  c10_adj_mutated_in_place [[0, 1]] (1/2) 0 1

/-- C2 (code bug): the claim — calling the CAM computation before any forward
pass raises the precondition error, for both extractors — matches the intent
of `_precheck` ("Inputs need to be forwarded in the model for the conv
features to be hooked"), but neither extractor actually raises it.  For every
weight strategy that succeeds: `_LegacyCAM.__call__` never invokes `_precheck`
(the call is commented out, `cam.py` line 86) and instead fails inside
`compute_cams` with an `AttributeError` on `hook_a = None`; `_precheck` itself
*would* have raised the precondition error.  `_CAM.__init__` sets
`hook_a = list()`, so `_CAM._precheck`'s `hook_a is None` test never fires on
the empty buffer, and the call fails with the `torch.stack`-of-an-empty-list
`RuntimeError` instead. -/
theorem c2_precondition_error_never_raised (w : List ℚ) (ws : List (List ℚ)) :
    cam.legacyCall ⟨none, false, false, fun _ _ => .ok w⟩ 0 none true
        = Except.error cam.CamError.attributeNone ∧
    cam.legacyPrecheck ⟨none, false, false, fun _ _ => .ok w⟩ 0 none
        = Except.error cam.CamError.assertionNoForward ∧
    cam.multiCall ⟨some [], false, true, fun _ _ => .ok ws⟩ 0 none
        = Except.error cam.CamError.stackEmpty := by
  exact ⟨rfl, rfl, rfl⟩

/-- C2 witness: the evaluation at the trivial constant weight strategy. -/
theorem c2_precondition_error_never_raised_witness :
    cam.legacyCall ⟨none, false, false, fun _ _ => .ok [1]⟩ 0 none true
        = Except.error cam.CamError.attributeNone ∧
    cam.legacyPrecheck ⟨none, false, false, fun _ _ => .ok [1]⟩ 0 none
        = Except.error cam.CamError.assertionNoForward ∧
    cam.multiCall ⟨some [], false, true, fun _ _ => .ok [[1]]⟩ 0 none
        = Except.error cam.CamError.stackEmpty :=
  c2_precondition_error_never_raised [1] [[1]]

namespace cam

lemma foldl_min_le_init (l : List ℚ) (a : ℚ) : l.foldl min a ≤ a := by
  induction l generalizing a with
  | nil => simp
  | cons x xs ih => exact le_trans (ih (min a x)) (min_le_left a x)

lemma foldl_min_le_mem (l : List ℚ) (a x : ℚ) (hx : x ∈ l) :
    l.foldl min a ≤ x := by
  induction l generalizing a with
  | nil => cases hx
  | cons y ys ih =>
    rcases List.mem_cons.mp hx with h | h
    · subst h
      exact le_trans (foldl_min_le_init ys (min a x)) (min_le_right a x)
    · exact ih (min a y) h

lemma listMin_le (l : List ℚ) (x : ℚ) (hx : x ∈ l) : listMin l ≤ x := by
  cases l with
  | nil => cases hx
  | cons y ys =>
    rcases List.mem_cons.mp hx with h | h
    · subst h; exact foldl_min_le_init ys x
    · exact foldl_min_le_mem ys y x h

lemma le_foldl_max_init (l : List ℚ) (a : ℚ) : a ≤ l.foldl max a := by
  induction l generalizing a with
  | nil => simp
  | cons x xs ih => exact le_trans (le_max_left a x) (ih (max a x))

lemma le_foldl_max_mem (l : List ℚ) (a x : ℚ) (hx : x ∈ l) :
    x ≤ l.foldl max a := by
  induction l generalizing a with
  | nil => cases hx
  | cons y ys ih =>
    rcases List.mem_cons.mp hx with h | h
    · subst h
      exact le_trans (le_max_right a x) (le_foldl_max_init ys (max a x))
    · exact ih (max a y) h

lemma le_listMax (l : List ℚ) (x : ℚ) (hx : x ∈ l) : x ≤ listMax l := by
  cases l with
  | nil => cases hx
  | cons y ys =>
    rcases List.mem_cons.mp hx with h | h
    · subst h; exact le_foldl_max_init ys x
    · exact le_foldl_max_mem ys y x h

lemma foldl_min_map_sub (l : List ℚ) (a c : ℚ) :
    (l.map (fun v => v - c)).foldl min (a - c) = l.foldl min a - c := by
  induction l generalizing a with
  | nil => simp
  | cons y ys ih =>
    simp only [List.map_cons, List.foldl_cons, min_sub_sub_right]
    exact ih (min a y)

lemma listMin_map_sub (l : List ℚ) (c : ℚ) (h : l ≠ []) :
    listMin (l.map (fun v => v - c)) = listMin l - c := by
  cases l with
  | nil => exact absurd rfl h
  | cons y ys => exact foldl_min_map_sub ys y c

lemma foldl_min_map_div (l : List ℚ) (a c : ℚ) (hc : 0 ≤ c) :
    (l.map (fun v => v / c)).foldl min (a / c) = l.foldl min a / c := by
  induction l generalizing a with
  | nil => simp
  | cons y ys ih =>
    simp only [List.map_cons, List.foldl_cons, min_div_div_right hc]
    exact ih (min a y)

lemma listMin_map_div (l : List ℚ) (c : ℚ) (h : l ≠ []) (hc : 0 ≤ c) :
    listMin (l.map (fun v => v / c)) = listMin l / c := by
  cases l with
  | nil => exact absurd rfl h
  | cons y ys => exact foldl_min_map_div ys y c hc

lemma foldl_max_map_div (l : List ℚ) (a c : ℚ) (hc : 0 ≤ c) :
    (l.map (fun v => v / c)).foldl max (a / c) = l.foldl max a / c := by
  induction l generalizing a with
  | nil => simp
  | cons y ys ih =>
    simp only [List.map_cons, List.foldl_cons, max_div_div_right hc]
    exact ih (max a y)

lemma listMax_map_div (l : List ℚ) (c : ℚ) (h : l ≠ []) (hc : 0 ≤ c) :
    listMax (l.map (fun v => v / c)) = listMax l / c := by
  cases l with
  | nil => exact absurd rfl h
  | cons y ys => exact foldl_max_map_div ys y c hc

lemma getD_map_lt (l : List ℚ) (f : ℚ → ℚ) (i : ℕ) (hi : i < l.length) :
    (l.map f).getD i 0 = f (l.getD i 0) := by
  rw [List.getD_eq_getElem _ _ (by simpa using hi), List.getD_eq_getElem _ _ hi,
    List.getElem_map]

lemma getD_mem (l : List ℚ) (i : ℕ) (hi : i < l.length) : l.getD i 0 ∈ l := by
  rw [List.getD_eq_getElem _ _ hi]
  exact List.getElem_mem hi

lemma normalize_length (xs : List ℚ) : (normalize xs).length = xs.length := by
  simp [normalize]

lemma normalize_getD (xs : List ℚ) (i : ℕ) (hi : i < xs.length) :
    (normalize xs).getD i 0 =
      (xs.getD i 0 - listMin xs) /
        (listMax (xs.map (fun v => v - listMin xs)) + EPS) := by
  show ((xs.map (fun v => v - listMin xs)).map
      (fun v => v / (listMax (xs.map (fun v => v - listMin xs)) + EPS))).getD i 0 = _
  rw [getD_map_lt _ _ i (by simpa using hi), getD_map_lt _ _ i hi]

end cam

/-- C8 counterexample: `[0, 1/2]` *is* an output of the CAM normalization
(namely of `[0, EPS]`), yet re-normalizing moves its second entry by
`499999/1000002 ≈ 0.5`, far above `EPS`: the claimed idempotence-within-ε
fails for normalized vectors whose pre-normalization range was small. -/
theorem c8_renormalize_not_close_counterexample :
    cam.normalize [0, cam.EPS] = [0, 1/2] ∧
    cam.EPS ≤ |(cam.normalize (cam.normalize [0, cam.EPS])).getD 1 0
      - (cam.normalize [0, cam.EPS]).getD 1 0| := by
  constructor
  · norm_num [cam.normalize, cam.listMin, cam.listMax, cam.EPS]
  · norm_num [cam.normalize, cam.listMin, cam.listMax, cam.EPS]
    rw [abs_of_nonneg (by norm_num)]
    norm_num

/-- C8 (amended): for every score vector whose range `max - min` is at least
1, the output of the CAM normalization re-normalizes to a vector every entry
of which differs from its input entry by less than `EPS`.  (Out-of-range
indices read the default 0 on both sides.) -/
theorem c8_renormalize_close_for_large_range (xs : List ℚ)
    (h : 1 ≤ cam.listMax (xs.map (fun v => v - cam.listMin xs))) (i : ℕ) :
    |(cam.normalize (cam.normalize xs)).getD i 0
      - (cam.normalize xs).getD i 0| < cam.EPS := by
  have hEPS : (0 : ℚ) < cam.EPS := by norm_num [cam.EPS]
  rcases xs with _ | ⟨x, t⟩
  · simp only [List.map_nil] at h
    norm_num [cam.listMax] at h
  set xs := x :: t with hxs
  set m := cam.listMin xs with hm
  set s := xs.map (fun v => v - m) with hs
  set R := cam.listMax s with hRdef
  have hR : 1 ≤ R := h
  have hc : (0 : ℚ) < R + cam.EPS := by linarith
  have hsne : s ≠ [] := by simp [hs, hxs]
  have hxsne : xs ≠ [] := by simp [hxs]
  -- the normalized vector
  have hy : cam.normalize xs = s.map (fun v => v / (R + cam.EPS)) := rfl
  set y := s.map (fun v => v / (R + cam.EPS)) with hydef
  -- min of the shifted vector is 0
  have hmins : cam.listMin s = 0 := by
    rw [hs, cam.listMin_map_sub xs m hxsne, hm, sub_self]
  -- min of the normalized vector is 0
  have hminy : cam.listMin y = 0 := by
    rw [hydef, cam.listMin_map_div s (R + cam.EPS) hsne (le_of_lt hc), hmins,
      zero_div]
  -- the second shift is the identity on values
  have hshift2 : y.map (fun v => v - cam.listMin y) = y := by
    rw [hminy]
    simp
  -- max of the re-shifted vector
  have hmaxy : cam.listMax (y.map (fun v => v - cam.listMin y)) =
      R / (R + cam.EPS) := by
    rw [hshift2, hydef, cam.listMax_map_div s (R + cam.EPS) hsne (le_of_lt hc),
      hRdef]
  by_cases hi : i < xs.length
  case neg =>
    -- out of range: both sides read the default 0
    have hlen1 : (cam.normalize xs).length = xs.length := cam.normalize_length xs
    have hlen2 : (cam.normalize (cam.normalize xs)).length = xs.length := by
      rw [cam.normalize_length, hlen1]
    rw [List.getD_eq_default _ _ (by omega : (cam.normalize xs).length ≤ i),
      List.getD_eq_default _ _ (by omega : (cam.normalize (cam.normalize xs)).length ≤ i)]
    simpa using hEPS
  case pos =>
    have hislen : i < s.length := by rwa [hs, List.length_map]
    -- the entry of the normalized vector
    set a := s.getD i 0 with ha
    have hyi : y.getD i 0 = a / (R + cam.EPS) := by
      rw [hydef, cam.getD_map_lt s _ i hislen, ha]
    -- bounds on the shifted entry
    have ha0 : 0 ≤ a := by
      rw [← hmins]
      exact cam.listMin_le s a (cam.getD_mem s i hislen)
    have haR : a ≤ R := by
      rw [hRdef]
      exact cam.le_listMax s a (cam.getD_mem s i hislen)
    -- the entry of the re-normalized vector
    have hzi : (cam.normalize (cam.normalize xs)).getD i 0 =
        (a / (R + cam.EPS)) / (R / (R + cam.EPS) + cam.EPS) := by
      rw [cam.normalize_getD (cam.normalize xs) i (by rwa [cam.normalize_length])]
      rw [hy, hmaxy, hminy, sub_zero, hyi]
    have hyi2 : (cam.normalize xs).getD i 0 = a / (R + cam.EPS) := by
      rw [hy]
      exact hyi
    rw [hzi, hyi2]
    -- pure field arithmetic from here on
    set e := cam.EPS with he
    set c := R + e with hcdef
    have hc1 : 1 < c := by rw [hcdef]; linarith
    have hB : (0 : ℚ) < R + e * c := by nlinarith
    have hcne : c ≠ 0 := by positivity
    have hDden : R / c + e = (R + e * c) / c := by
      field_simp
    have hred : (a / c) / ((R + e * c) / c) = a / (R + e * c) := by
      rw [div_div_div_cancel_right₀]
      exact hcne
    rw [hDden, hred]
    have hle : a / (R + e * c) ≤ a / c := by
      apply div_le_div_of_nonneg_left ha0 hc
      nlinarith
    rw [abs_of_nonpos (by linarith)]
    have hgoal : a / c - a / (R + e * c) < e := by
      rw [div_sub_div a a hcne (ne_of_gt hB), div_lt_iff₀ (by positivity)]
      nlinarith [mul_le_mul_of_nonneg_right haR (show (0 : ℚ) ≤ c - 1 by linarith),
        mul_pos hc hB, mul_pos (mul_pos hEPS hc) hc]
    linarith

/-- C8 witness: the amended re-normalization bound applied to `[0, 1]`
(range exactly 1). -/
theorem c8_renormalize_close_for_large_range_witness :
    1 ≤ cam.listMax ([(0 : ℚ), 1].map (fun v => v - cam.listMin [0, 1])) ∧
    |(cam.normalize (cam.normalize [0, 1])).getD 1 0
      - (cam.normalize [0, 1]).getD 1 0| < cam.EPS :=
  ⟨by norm_num [cam.listMax, cam.listMin],
   c8_renormalize_close_for_large_range [0, 1]
     (by norm_num [cam.listMax, cam.listMin]) 1⟩

namespace evaluator

lemma getD_map_of_lt {α β : Type} (l : List α) (f : α → β) (d : β) (a : α)
    (i : ℕ) (hi : i < l.length) : (l.map f).getD i d = f (l.getD i a) := by
  rw [List.getD_eq_getElem _ _ (by simpa using hi), List.getD_eq_getElem _ _ hi,
    List.getElem_map]

lemma sum_map_add (l : List ℕ) (f g : ℕ → ℕ) :
    (l.map (fun x => f x + g x)).sum = (l.map f).sum + (l.map g).sum := by
  induction l with
  | nil => simp
  | cons x xs ih =>
    simp only [List.map_cons, List.sum_cons, ih]
    omega

lemma sum_map_ite_of_mem (cs : List ℕ) (hnd : cs.Nodup) (c : ℕ) (hc : c ∈ cs) :
    (cs.map (fun b => if c = b then (1 : ℕ) else 0)).sum = 1 := by
  induction cs with
  | nil => cases hc
  | cons x xs ih =>
    obtain ⟨hx, hnd2⟩ := List.nodup_cons.mp hnd
    rcases List.mem_cons.mp hc with h | h
    · subst h
      have hzero : (xs.map (fun b => if c = b then (1 : ℕ) else 0)).sum = 0 := by
        apply List.sum_eq_zero
        intro n hn
        obtain ⟨b, hb, hbn⟩ := List.mem_map.mp hn
        have hne : c ≠ b := fun hcb => hx (hcb ▸ hb)
        simp only [if_neg hne] at hbn
        omega
      simp [List.sum_cons, hzero]
    · have hxc : c ≠ x := fun hcb => hx (hcb ▸ h)
      simp [List.sum_cons, ih hnd2 h, if_neg hxc]

lemma sum_map_ite_false (cs : List ℕ) (P : ℕ → Prop) [DecidablePred P]
    (hP : ∀ b ∈ cs, ¬ P b) :
    (cs.map (fun b => if P b then (1 : ℕ) else 0)).sum = 0 := by
  induction cs with
  | nil => simp
  | cons x xs ih =>
    simp [List.sum_cons, if_neg (hP x (List.mem_cons_self x xs)),
      ih (fun b hb => hP b (List.mem_cons_of_mem x hb))]

lemma countP_row_partition (ps : List (ℕ × ℕ)) (cs : List ℕ) (hnd : cs.Nodup)
    (hmem : ∀ p ∈ ps, p.2 ∈ cs) (a : ℕ) :
    (cs.map (fun b => ps.countP (fun lp => decide (lp.1 = a ∧ lp.2 = b)))).sum
      = ps.countP (fun lp => decide (lp.1 = a)) := by
  induction ps with
  | nil => simp
  | cons p t ih =>
    have hmem2 : ∀ q ∈ t, q.2 ∈ cs := fun q hq => hmem q (List.mem_cons_of_mem p hq)
    have hp2 : p.2 ∈ cs := hmem p (List.mem_cons_self p t)
    simp only [List.countP_cons, decide_eq_true_eq]
    rw [show (fun b => t.countP (fun lp => decide (lp.1 = a ∧ lp.2 = b))
          + if p.1 = a ∧ p.2 = b then 1 else 0)
        = fun b => (t.countP (fun lp => decide (lp.1 = a ∧ lp.2 = b)))
          + (if p.1 = a ∧ p.2 = b then 1 else 0) from rfl]
    rw [sum_map_add, ih hmem2]
    by_cases hpa : p.1 = a
    · have hind : (cs.map (fun b => if p.1 = a ∧ p.2 = b then (1 : ℕ) else 0)).sum
          = (cs.map (fun b => if p.2 = b then (1 : ℕ) else 0)).sum := by
        have hfun : (fun b => if p.1 = a ∧ p.2 = b then (1 : ℕ) else 0)
            = (fun b => if p.2 = b then (1 : ℕ) else 0) := by
          funext b
          simp [hpa]
        rw [hfun]
      rw [hind, sum_map_ite_of_mem cs hnd p.2 hp2, if_pos hpa]
    · have hind : (cs.map (fun b => if p.1 = a ∧ p.2 = b then (1 : ℕ) else 0)).sum = 0 :=
        sum_map_ite_false cs _ (fun b _ hb => hpa hb.1)
      rw [hind, if_neg hpa]

lemma countP_diag_partition (ps : List (ℕ × ℕ)) (cs : List ℕ) (hnd : cs.Nodup)
    (hmem : ∀ p ∈ ps, p.1 ∈ cs) :
    (cs.map (fun c => ps.countP (fun lp => decide (lp.1 = c ∧ lp.2 = c)))).sum
      = ps.countP (fun lp => decide (lp.1 = lp.2)) := by
  induction ps with
  | nil => simp
  | cons p t ih =>
    have hmem2 : ∀ q ∈ t, q.1 ∈ cs := fun q hq => hmem q (List.mem_cons_of_mem p hq)
    have hp1 : p.1 ∈ cs := hmem p (List.mem_cons_self p t)
    simp only [List.countP_cons, decide_eq_true_eq]
    rw [show (fun c => t.countP (fun lp => decide (lp.1 = c ∧ lp.2 = c))
          + if p.1 = c ∧ p.2 = c then 1 else 0)
        = fun c => (t.countP (fun lp => decide (lp.1 = c ∧ lp.2 = c)))
          + (if p.1 = c ∧ p.2 = c then 1 else 0) from rfl]
    rw [sum_map_add, ih hmem2]
    by_cases hpq : p.1 = p.2
    · have hind : (cs.map (fun c => if p.1 = c ∧ p.2 = c then (1 : ℕ) else 0)).sum
          = (cs.map (fun c => if p.1 = c then (1 : ℕ) else 0)).sum := by
        have hfun : (fun c => if p.1 = c ∧ p.2 = c then (1 : ℕ) else 0)
            = (fun c => if p.1 = c then (1 : ℕ) else 0) := by
          funext c
          rw [← hpq]
          simp
        rw [hfun]
      rw [hind, sum_map_ite_of_mem cs hnd p.1 hp1, if_pos hpq]
    · have hind : (cs.map (fun c => if p.1 = c ∧ p.2 = c then (1 : ℕ) else 0)).sum = 0 :=
        sum_map_ite_false cs _ (fun c _ hb => hpq (hb.1.trans hb.2.symm))
      rw [hind, if_neg hpq]

lemma countP_zip_fst (labels preds : List ℕ) (hlen : labels.length = preds.length)
    (a : ℕ) :
    (labels.zip preds).countP (fun lp => decide (lp.1 = a)) = labels.count a := by
  induction labels generalizing preds with
  | nil => simp
  | cons l ls ih =>
    cases preds with
    | nil => simp at hlen
    | cons p pt =>
      have hlen2 : ls.length = pt.length := by simpa using hlen
      simp only [List.zip_cons_cons, List.countP_cons, ih pt hlen2,
        List.count_cons, decide_eq_true_eq, beq_iff_eq]

lemma le_foldr_max (l : List ℕ) (v : ℕ) (hv : v ∈ l) : v ≤ l.foldr max 0 := by
  induction l with
  | nil => cases hv
  | cons x xs ih =>
    rcases List.mem_cons.mp hv with h | h
    · subst h; exact le_max_left v (xs.foldr max 0)
    · exact le_trans (ih h) (le_max_right x (xs.foldr max 0))

lemma mem_observedClasses (labels preds : List ℕ) (v : ℕ)
    (hv : v ∈ labels ++ preds) : v ∈ observedClasses labels preds := by
  unfold observedClasses
  rw [List.mem_filter]
  exact ⟨List.mem_range.mpr (Nat.lt_succ_of_le (le_foldr_max _ v hv)),
    by simpa using hv⟩

lemma observedClasses_nodup (labels preds : List ℕ) :
    (observedClasses labels preds).Nodup :=
  (List.nodup_range _).filter _

lemma getD_append_self (pre : List ℕ) (c : ℕ) (rest : List ℕ) :
    (pre ++ c :: rest).getD pre.length 0 = c := by
  induction pre with
  | nil => rfl
  | cons x xs ih => simpa using ih

lemma diagSum_map_aligned (g : ℕ → ℕ → ℕ) (full : List ℕ) :
    ∀ (suffix pre : List ℕ), full = pre ++ suffix →
      diagSum (suffix.map (fun c => full.map (fun b => g c b))) pre.length
        = (suffix.map (fun c => g c c)).sum := by
  intro suffix
  induction suffix with
  | nil => intro _ _; simp [diagSum]
  | cons c rest ih =>
    intro pre hfull
    simp only [List.map_cons, diagSum, List.sum_cons]
    have hlt : pre.length < full.length := by
      rw [hfull, List.length_append, List.length_cons]
      omega
    have hentry : (full.map (fun b => g c b)).getD pre.length 0 = g c c := by
      rw [getD_map_of_lt full _ 0 0 pre.length hlt, hfull, getD_append_self]
    rw [hentry]
    have hpre1 : pre.length + 1 = (pre ++ [c]).length := by simp
    rw [hpre1, ih (pre ++ [c]) (by rw [hfull]; simp)]

end evaluator

/-- C7 counterexample: for logits `[[1, 0]]` (N = 1, K = 2) and labels `[0]`
(all labels in `[0, 2)`), sklearn infers the class set from the data — here
only the value 0 is observed — so the returned matrix is `1×1`, not the
claimed `K×K = 2×2`. -/
theorem c7_confusion_matrix_not_KxK :
    evaluator.confusionMatrix [[(1 : ℚ), 0]] [0] = [[1]] ∧
    (evaluator.confusionMatrix [[(1 : ℚ), 0]] [0]).length ≠ 2 := by
  have h : evaluator.confusionMatrix [[(1 : ℚ), 0]] [0] = [[1]] := by
    norm_num [evaluator.confusionMatrix, evaluator.observedClasses,
      evaluator.argmaxRow, List.enum, List.enumFrom, List.count_cons,
      List.countP, List.countP.go]
    decide
  exact ⟨h, by rw [h]; decide⟩

/-- C7 (amended): the confusion-matrix evaluator returns an `L×L` count
matrix, where `L` is the number of distinct values observed among the labels
and the row-wise arg-max predictions (in increasing order); rows index true
labels and columns predicted labels; the sum of row `a` equals the number of
samples labelled with the `a`-th observed class; and the trace equals the
total number of correct predictions.  The matrix is `K×K` only when all `K`
classes are observed. -/
theorem c7_confusion_matrix_observed (logits : List (List ℚ)) (labels : List ℕ)
    (hlen : labels.length = logits.length) :
    (evaluator.confusionMatrix logits labels).length
        = (evaluator.observedClasses labels (logits.map evaluator.argmaxRow)).length ∧
    (∀ row ∈ evaluator.confusionMatrix logits labels,
        row.length
          = (evaluator.observedClasses labels (logits.map evaluator.argmaxRow)).length) ∧
    (∀ a, a < (evaluator.observedClasses labels (logits.map evaluator.argmaxRow)).length →
        ((evaluator.confusionMatrix logits labels).getD a []).sum
          = labels.count
              ((evaluator.observedClasses labels (logits.map evaluator.argmaxRow)).getD a 0)) ∧
    evaluator.traceM (evaluator.confusionMatrix logits labels)
        = (labels.zip (logits.map evaluator.argmaxRow)).countP
            (fun lp => decide (lp.1 = lp.2)) := by
  set preds := logits.map evaluator.argmaxRow with hpreds
  set classes := evaluator.observedClasses labels preds with hclasses
  have hnd : classes.Nodup := evaluator.observedClasses_nodup labels preds
  have hmemp : ∀ p ∈ labels.zip preds, p.2 ∈ classes := fun p hp =>
    evaluator.mem_observedClasses _ _ _
      (List.mem_append.mpr (Or.inr (List.of_mem_zip hp).2))
  have hmeml : ∀ p ∈ labels.zip preds, p.1 ∈ classes := fun p hp =>
    evaluator.mem_observedClasses _ _ _
      (List.mem_append.mpr (Or.inl (List.of_mem_zip hp).1))
  have hcm : evaluator.confusionMatrix logits labels
      = classes.map (fun a => classes.map (fun b =>
          (labels.zip preds).countP (fun lp => decide (lp.1 = a ∧ lp.2 = b)))) := rfl
  have hplen : labels.length = preds.length := by
    rw [hpreds, List.length_map]
    exact hlen
  refine ⟨?_, ?_, ?_, ?_⟩
  · rw [hcm, List.length_map]
  · intro row hrow
    rw [hcm] at hrow
    obtain ⟨c, _, hc⟩ := List.mem_map.mp hrow
    rw [← hc, List.length_map]
  · intro a ha
    rw [hcm, evaluator.getD_map_of_lt classes _ [] 0 a ha,
      evaluator.countP_row_partition (labels.zip preds) classes hnd hmemp,
      evaluator.countP_zip_fst labels preds hplen]
  · rw [hcm, evaluator.traceM,
      show (0 : ℕ) = ([] : List ℕ).length from rfl,
      evaluator.diagSum_map_aligned _ classes classes [] (by simp),
      evaluator.countP_diag_partition (labels.zip preds) classes hnd hmeml]

/-- C7 witness: the amended confusion-matrix theorem at logits
`[[3,1],[0,2],[1,5]]`, labels `[0,1,1]` (observed classes `{0,1}`). -/
theorem c7_confusion_matrix_observed_witness :
    ([0, 1, 1] : List ℕ).length = ([[3, 1], [0, 2], [1, 5]] : List (List ℚ)).length ∧
    evaluator.traceM (evaluator.confusionMatrix [[3, 1], [0, 2], [1, 5]] [0, 1, 1])
      = (([0, 1, 1] : List ℕ).zip
          (([[3, 1], [0, 2], [1, 5]] : List (List ℚ)).map evaluator.argmaxRow)).countP
          (fun lp => decide (lp.1 = lp.2)) :=
  ⟨rfl, (c7_confusion_matrix_observed [[3, 1], [0, 2], [1, 5]] [0, 1, 1] rfl).2.2.2⟩

/-- C4 counterexample: for the raw edge mask constantly 1 under ReLU
activation, the activated-and-symmetrized mask returned by `_get_adj_mask`
has the *nonzero* diagonal entry `S 0 0 = (max 0 1 + max 0 1)/2 = 1`:
`_get_adj_mask` never zeroes the diagonal (that happens only to the masked
adjacency in `_masked_adj`). -/
theorem c4_adj_mask_diag_not_zero_counterexample :
    explainer.getAdjMask explainer.emRelu false
      = Except.ok (fun _ _ => (max 0 (1 : ℝ) + max 0 1) / 2) ∧
    (max 0 (1 : ℝ) + max 0 1) / 2 = 1 ∧ ((1 : ℝ) ≠ 0) := by
  refine ⟨rfl, by norm_num, by norm_num⟩

/-- C4 (amended): the activated-and-symmetrized edge mask produced by
`_get_adj_mask` is exactly symmetric, but its diagonal is *not* forced to
zero; the zero diagonal holds for the masked adjacency of `_masked_adj`
(`adj ⊙ sym_mask ⊙ (ones - eye)`), which satisfies `M i i = 0` for every `i`
and is symmetric whenever `adj` is. -/
theorem c4_mask_symmetric_and_masked_adj_diag_zero
    (em : explainer.ExplainerModel) (S : ℕ → ℕ → ℝ)
    (h : explainer.getAdjMask em false = Except.ok S) :
    (∀ i j, S i j = S j i) ∧
    ∀ M, explainer.maskedAdj em = Except.ok M →
      (∀ i, M i i = 0) ∧
      ((∀ i j, em.adj i j = em.adj j i) → ∀ i j, M i j = M j i) := by
  have hsym : ∀ i j, S i j = S j i := by
    unfold explainer.getAdjMask at h
    split at h
    · have hS := Except.ok.inj h
      subst hS
      intro i j
      simp only [Bool.false_eq_true, if_false]
      ring
    · have hS := Except.ok.inj h
      subst hS
      intro i j
      simp only [Bool.false_eq_true, if_false]
      ring
    · simp at h
  refine ⟨hsym, ?_⟩
  intro M hM
  unfold explainer.maskedAdj at hM
  rw [h] at hM
  have hM2 : Except.ok
      (fun i j => em.adj i j * S i j * (1 - if i = j then (1 : ℝ) else 0))
      = Except.ok M := hM
  have hMf := Except.ok.inj hM2
  subst hMf
  constructor
  · intro i
    simp
  · intro hadj i j
    have hd : (if i = j then (1 : ℝ) else 0) = (if j = i then (1 : ℝ) else 0) := by
      by_cases hij : i = j
      · simp [hij]
      · rw [if_neg hij, if_neg (fun hji => hij hji.symm)]
    simp only []
    rw [hadj i j, hsym i j, hd]

/-- C4 witness: the symmetry/diagonal theorem at the concrete ReLU state. -/
theorem c4_mask_symmetric_and_masked_adj_diag_zero_witness :
    explainer.getAdjMask explainer.emRelu false
      = Except.ok (fun _ _ => (max 0 (1 : ℝ) + max 0 1) / 2) ∧
    (∀ i j, ((fun _ _ => (max 0 (1 : ℝ) + max 0 1) / 2) : ℕ → ℕ → ℝ) i j
      = ((fun _ _ => (max 0 (1 : ℝ) + max 0 1) / 2) : ℕ → ℕ → ℝ) j i) :=
  ⟨rfl, (c4_mask_symmetric_and_masked_adj_diag_zero explainer.emRelu _ rfl).1⟩

/-- C5 counterexample: constructing an `ExplainerModel` with
`mask_activation = "tanh"` (neither `"sigmoid"` nor `"relu"`) does *not* fail:
`__init__` stores the string unvalidated (line 38) and construction completes;
the `ValueError` only surfaces at the first mask-activation use
(`_get_node_feats_mask` / `_get_adj_mask`, hence the first forward or loss). -/
theorem c5_construction_accepts_bad_activation_counterexample :
    (explainer.explainerInit (fun _ _ _ => 0) (fun _ _ => 1) (fun _ _ => 1) 1 1
        (fun _ => 0) 1 ⟨"tanh", "const", 1, 1, 1⟩ (fun _ _ => 0) (fun _ => 0)
        (fun _ _ => 0) (fun _ => 0)).maskAct = "tanh" ∧
    explainer.getNodeFeatsMask
        (explainer.explainerInit (fun _ _ _ => 0) (fun _ _ => 1) (fun _ _ => 1) 1 1
          (fun _ => 0) 1 ⟨"tanh", "const", 1, 1, 1⟩ (fun _ _ => 0) (fun _ => 0)
          (fun _ _ => 0) (fun _ => 0))
      = Except.error "Unsupported mask activation" := by
  exact ⟨rfl, rfl⟩

/-- C5 (amended): for every configuration whose `mask_activation` is neither
`"sigmoid"` nor `"relu"`, construction completes (the string is stored as-is),
and the configuration `ValueError` is raised at the first use of a mask
activation: `_get_node_feats_mask`, `_get_adj_mask`, and hence `forward` all
fail with it. -/
theorem c5_config_error_raised_on_first_use
    (model : (ℕ → ℕ → ℝ) → (ℕ → ℕ → ℝ) → (ℕ → ℝ))
    (adj x : ℕ → ℕ → ℝ) (nN nF : ℕ) (ip : ℕ → ℝ) (K : ℕ)
    (mp : explainer.ModelParams) (xiE : ℕ → ℕ → ℝ) (xiN : ℕ → ℝ)
    (uE : ℕ → ℕ → ℝ) (uN : ℕ → ℝ) (wz : Bool)
    (h1 : mp.mask_activation ≠ "sigmoid") (h2 : mp.mask_activation ≠ "relu") :
    (explainer.explainerInit model adj x nN nF ip K mp xiE xiN uE uN).maskAct
        = mp.mask_activation ∧
    explainer.getNodeFeatsMask
        (explainer.explainerInit model adj x nN nF ip K mp xiE xiN uE uN)
      = Except.error "Unsupported mask activation" ∧
    explainer.getAdjMask
        (explainer.explainerInit model adj x nN nF ip K mp xiE xiN uE uN) wz
      = Except.error "Unsupported mask activation" ∧
    explainer.forwardE
        (explainer.explainerInit model adj x nN nF ip K mp xiE xiN uE uN)
      = Except.error "Unsupported mask activation" := by
  have hact : (explainer.explainerInit model adj x nN nF ip K mp xiE xiN uE uN).maskAct
      = mp.mask_activation := rfl
  have hnode : explainer.getNodeFeatsMask
      (explainer.explainerInit model adj x nN nF ip K mp xiE xiN uE uN)
      = Except.error "Unsupported mask activation" := by
    unfold explainer.getNodeFeatsMask
    split
    case _ heq => exact absurd (hact ▸ heq) h1
    case _ heq => exact absurd (hact ▸ heq) h2
    case _ => rfl
  refine ⟨hact, hnode, ?_, ?_⟩
  · unfold explainer.getAdjMask
    split
    case _ heq => exact absurd (hact ▸ heq) h1
    case _ heq => exact absurd (hact ▸ heq) h2
    case _ => rfl
  · unfold explainer.forwardE explainer.maskedNodeFeats
    rw [hnode]
    rfl

/-- C5 witness: the deferred-error theorem at the concrete `"tanh"` config. -/
theorem c5_config_error_raised_on_first_use_witness :
    ("tanh" : String) ≠ "sigmoid" ∧ ("tanh" : String) ≠ "relu" ∧
    explainer.getNodeFeatsMask
        (explainer.explainerInit (fun _ _ _ => 0) (fun _ _ => 1) (fun _ _ => 1) 1 1
          (fun _ => 0) 1 ⟨"tanh", "const", 1, 1, 1⟩ (fun _ _ => 0) (fun _ => 0)
          (fun _ _ => 0) (fun _ => 0))
      = Except.error "Unsupported mask activation" :=
  ⟨by decide, by decide,
   (c5_config_error_raised_on_first_use (fun _ _ _ => 0) (fun _ _ => 1)
     (fun _ _ => 1) 1 1 (fun _ => 0) 1 ⟨"tanh", "const", 1, 1, 1⟩
     (fun _ _ => 0) (fun _ => 0) (fun _ _ => 0) (fun _ => 0) false
     (by decide) (by decide)).2.1⟩

/-- C6: `ExplainerModel.forward` applies the frozen model to the original,
unmasked adjacency together with the masked features
`x ⊙ broadcast(activated node mask)` and returns `(ypred, masked_x)`; the edge
mask parameters have no effect on the value `forward` returns. -/
theorem c6_forward_uses_unmasked_adj (em : explainer.ExplainerModel)
    (nm : ℕ → ℝ) (h : explainer.getNodeFeatsMask em = Except.ok nm) :
    explainer.forwardE em
      = Except.ok (em.model em.adj (fun n c => em.x n c * nm n),
          fun n c => em.x n c * nm n) ∧
    ∀ M : ℕ → ℕ → ℝ, explainer.forwardE { em with mask := M }
      = explainer.forwardE em := by
  constructor
  · unfold explainer.forwardE explainer.maskedNodeFeats
    rw [h]
    rfl
  · intro M
    rfl

/-- C6 witness: the forward theorem at the concrete ReLU state. -/
theorem c6_forward_uses_unmasked_adj_witness :
    explainer.getNodeFeatsMask explainer.emRelu
      = Except.ok (fun i => max 0 (explainer.emRelu.nodeMask i)) ∧
    ∀ M : ℕ → ℕ → ℝ, explainer.forwardE { explainer.emRelu with mask := M }
      = explainer.forwardE explainer.emRelu :=
  ⟨rfl, (c6_forward_uses_unmasked_adj explainer.emRelu _ rfl).2⟩

/-- C9: after construction the node mask is initialized with the hard-coded
`'const'` strategy (every entry 1.0) regardless of `model_params['init']`,
while the configured strategy is applied to the edge mask: with `"normal"`
the edge mask entries are the `N(1.0, std)` draws, with `"const"` they are
all 1. -/
theorem c9_node_mask_always_const_init
    (model : (ℕ → ℕ → ℝ) → (ℕ → ℕ → ℝ) → (ℕ → ℝ))
    (adj x : ℕ → ℕ → ℝ) (nN nF : ℕ) (ip : ℕ → ℝ) (K : ℕ)
    (mp : explainer.ModelParams) (xiE : ℕ → ℕ → ℝ) (xiN : ℕ → ℝ)
    (uE : ℕ → ℕ → ℝ) (uN : ℕ → ℝ) (i j : ℕ) :
    (explainer.explainerInit model adj x nN nF ip K mp xiE xiN uE uN).nodeMask i
        = 1 ∧
    (mp.init = "normal" →
      (explainer.explainerInit model adj x nN nF ip K mp xiE xiN uE uN).mask i j
        = 1 + explainer.initStd nN * xiE i j) ∧
    (mp.init = "const" →
      (explainer.explainerInit model adj x nN nF ip K mp xiE xiN uE uN).mask i j
        = 1) := by
  refine ⟨rfl, ?_, ?_⟩
  · intro h
    show explainer.buildEdgeMask nN mp.init xiE uE i j = _
    rw [explainer.buildEdgeMask, if_pos h]
  · intro h
    show explainer.buildEdgeMask nN mp.init xiE uE i j = _
    rw [explainer.buildEdgeMask, if_neg (by rw [h]; decide), if_pos h]

/-- C9 witness: node mask entry 1 even under the `"normal"` init strategy,
which does shape the edge mask. -/
theorem c9_node_mask_always_const_init_witness :
    (explainer.explainerInit (fun _ _ _ => 0) (fun _ _ => 1) (fun _ _ => 1) 2 1
        (fun _ => 0) 1 ⟨"sigmoid", "normal", 1, 1, 1⟩ (fun _ _ => 1) (fun _ => 1)
        (fun _ _ => 0) (fun _ => 0)).nodeMask 0 = 1 ∧
    (explainer.explainerInit (fun _ _ _ => 0) (fun _ _ => 1) (fun _ _ => 1) 2 1
        (fun _ => 0) 1 ⟨"sigmoid", "normal", 1, 1, 1⟩ (fun _ _ => 1) (fun _ => 1)
        (fun _ _ => 0) (fun _ => 0)).mask 0 0 = 1 + explainer.initStd 2 * 1 :=
  ⟨(c9_node_mask_always_const_init (fun _ _ _ => 0) (fun _ _ => 1) (fun _ _ => 1)
      2 1 (fun _ => 0) 1 ⟨"sigmoid", "normal", 1, 1, 1⟩ (fun _ _ => 1) (fun _ => 1)
      (fun _ _ => 0) (fun _ => 0) 0 0).1,
   (c9_node_mask_always_const_init (fun _ _ _ => 0) (fun _ _ => 1) (fun _ _ => 1)
      2 1 (fun _ => 0) 1 ⟨"sigmoid", "normal", 1, 1, 1⟩ (fun _ _ => 1) (fun _ => 1)
      (fun _ _ => 0) (fun _ => 0) 0 0).2.1 rfl⟩

namespace explainer

lemma lossE_ok (em : ExplainerModel) (pred : ℕ → ℝ) (nm : ℕ → ℝ)
    (h : getNodeFeatsMask em = Except.ok nm) :
    lossE em pred = Except.ok (predTermCode em pred
      + em.coeffNode * (∑ i ∈ Finset.range em.numNodes, nm i)
      + em.coeffNodeEnt * ((∑ i ∈ Finset.range em.numNodes,
          (-nm i * Real.log (nm i) - (1 - nm i) * Real.log (1 - nm i)))
            / (em.numNodes : ℝ))) := by
  unfold lossE
  rw [h]
  rfl

end explainer

/-- C3 (amended): the loss's prediction term equals
`coeffs['ce'] * (alpha * CE(ypred, argmax(init_probs)) + (1 - alpha) * D)`
with `alpha = entropy(softmax(ypred)) / log K`, where `D` is the negative
*sum* `-∑ⱼ init_probsⱼ · log_softmax(ypred)ⱼ` (the mean over the 1-sized batch
of the per-sample class sums, not the mean over the `1×K` entries), and the
weight `1 - alpha` on the distillation term strictly grows as the prediction
entropy decreases. -/
theorem c3_pred_term_entropy_blend (em : explainer.ExplainerModel)
    (pred : ℕ → ℝ) (nm : ℕ → ℝ)
    (h : explainer.getNodeFeatsMask em = Except.ok nm)
    (hK : 2 ≤ em.numClasses) :
    explainer.lossE em pred = Except.ok (explainer.predTermCode em pred
        + em.coeffNode * (∑ i ∈ Finset.range em.numNodes, nm i)
        + em.coeffNodeEnt * ((∑ i ∈ Finset.range em.numNodes,
            (-nm i * Real.log (nm i) - (1 - nm i) * Real.log (1 - nm i)))
              / (em.numNodes : ℝ))) ∧
    explainer.predTermCode em pred = em.coeffCe *
        (explainer.alphaE em pred
            * explainer.crossEntropyLoss pred em.numClasses em.label
          + (1 - explainer.alphaE em pred)
            * -(∑ j ∈ Finset.range em.numClasses,
                em.initProbs j * explainer.logSoftmaxV pred em.numClasses j)) ∧
    ∀ q : ℕ → ℝ,
      explainer.entropyV (explainer.softmaxV q em.numClasses) em.numClasses
          < explainer.entropyV (explainer.softmaxV pred em.numClasses)
              em.numClasses →
      1 - explainer.alphaE em pred < 1 - explainer.alphaE em q := by
  refine ⟨explainer.lossE_ok em pred nm h, rfl, ?_⟩
  intro q hq
  have hK1 : (1 : ℝ) < (em.numClasses : ℝ) := by
    have : (2 : ℝ) ≤ (em.numClasses : ℝ) := by exact_mod_cast hK
    linarith
  have hlog : 0 < Real.log (em.numClasses : ℝ) := Real.log_pos hK1
  have halpha : explainer.alphaE em q < explainer.alphaE em pred := by
    unfold explainer.alphaE
    exact div_lt_div_of_pos_right hq hlog
  linarith

/-- C3 witness: the amended prediction-term theorem at the concrete ReLU
state and logits `(log 3, 0)`. -/
theorem c3_pred_term_entropy_blend_witness :
    explainer.getNodeFeatsMask explainer.emRelu
      = Except.ok (fun i => max 0 (explainer.emRelu.nodeMask i)) ∧
    2 ≤ explainer.emRelu.numClasses ∧
    explainer.predTermCode explainer.emRelu explainer.predEx
      = explainer.emRelu.coeffCe *
        (explainer.alphaE explainer.emRelu explainer.predEx
            * explainer.crossEntropyLoss explainer.predEx
                explainer.emRelu.numClasses explainer.emRelu.label
          + (1 - explainer.alphaE explainer.emRelu explainer.predEx)
            * -(∑ j ∈ Finset.range explainer.emRelu.numClasses,
                explainer.emRelu.initProbs j
                  * explainer.logSoftmaxV explainer.predEx
                      explainer.emRelu.numClasses j)) :=
  ⟨rfl, Nat.le_refl 2,
   (c3_pred_term_entropy_blend explainer.emRelu explainer.predEx _ rfl
     (Nat.le_refl 2)).2.1⟩

/-- C3 counterexample: at the concrete state (`K = 2`,
`init_probs = (1, 0)`, `coeffs['ce'] = 1`, zero node coefficients) and logits
`ypred = (log 3, 0)`, the loss's prediction term is
`alpha·CE + (1-alpha)·D` with `D = -∑ⱼ init_probsⱼ·log_softmax(ypred)ⱼ =
log(4/3)`, whereas the claim's `D` — the negative *mean* of the `1×K` matrix
`init_probs ⊙ log_softmax(ypred)`, i.e. the sum divided by `K = 2` — gives a
different prediction term: the two differ by `(1-alpha)·D/2 > 0` (here
`alpha < 1` since the prediction entropy is below `log 2`, and `D > 0`). -/
theorem c3_pred_term_not_mean_counterexample :
    explainer.lossE explainer.emRelu explainer.predEx
        = Except.ok (explainer.predTermCode explainer.emRelu explainer.predEx) ∧
    explainer.predTermCode explainer.emRelu explainer.predEx
        ≠ explainer.predTermSpec explainer.emRelu explainer.predEx := by
  constructor
  · rw [explainer.lossE_ok explainer.emRelu explainer.predEx
      (fun i => max 0 (explainer.emRelu.nodeMask i)) rfl]
    have hn : explainer.emRelu.coeffNode = 0 := rfl
    have hne : explainer.emRelu.coeffNodeEnt = 0 := rfl
    rw [hn, hne]
    norm_num
  · -- the concrete softmax / entropy values
    have h3pos : (0 : ℝ) < 3 := by norm_num
    have hp0 : explainer.predEx 0 = Real.log 3 := by simp [explainer.predEx]
    have hp1 : explainer.predEx 1 = 0 := by simp [explainer.predEx]
    have hsum_exp : (∑ j ∈ Finset.range 2, Real.exp (explainer.predEx j)) = 4 := by
      rw [Finset.sum_range_succ, Finset.sum_range_one, hp0, hp1,
        Real.exp_log h3pos, Real.exp_zero]
      norm_num
    have hsm0 : explainer.softmaxV explainer.predEx 2 0 = 3 / 4 := by
      unfold explainer.softmaxV
      rw [hsum_exp, hp0, Real.exp_log h3pos]
    have hsm1 : explainer.softmaxV explainer.predEx 2 1 = 1 / 4 := by
      unfold explainer.softmaxV
      rw [hsum_exp, hp1, Real.exp_zero]
    have hls0 : explainer.logSoftmaxV explainer.predEx 2 0
        = Real.log (3 / 4) := by
      unfold explainer.logSoftmaxV
      rw [hsm0]
    have hls1 : explainer.logSoftmaxV explainer.predEx 2 1
        = Real.log (1 / 4) := by
      unfold explainer.logSoftmaxV
      rw [hsm1]
    have hD : explainer.distillationLoss explainer.emRelu explainer.predEx
        = -Real.log (3 / 4) := by
      show -(∑ j ∈ Finset.range 2, explainer.emRelu.initProbs j
          * explainer.logSoftmaxV explainer.predEx 2 j) = -Real.log (3 / 4)
      rw [Finset.sum_range_succ, Finset.sum_range_one, hls0, hls1]
      have hip0 : explainer.emRelu.initProbs 0 = 1 := by
        simp [explainer.emRelu]
      have hip1 : explainer.emRelu.initProbs 1 = 0 := by
        simp [explainer.emRelu]
      rw [hip0, hip1]
      ring
    have hDpos : 0 < explainer.distillationLoss explainer.emRelu explainer.predEx := by
      rw [hD]
      have : Real.log (3 / 4) < 0 := Real.log_neg (by norm_num) (by norm_num)
      linarith
    -- 4 log 2 < 3 log 3
    have h16 : Real.log 16 = 4 * Real.log 2 := by
      rw [show (16 : ℝ) = 2 ^ 4 by norm_num, Real.log_pow]
      push_cast
      ring
    have h27 : Real.log 27 = 3 * Real.log 3 := by
      rw [show (27 : ℝ) = 3 ^ 3 by norm_num, Real.log_pow]
      push_cast
      ring
    have h4lt : 4 * Real.log 2 < 3 * Real.log 3 := by
      have := Real.log_lt_log (by norm_num : (0 : ℝ) < 16)
        (by norm_num : (16 : ℝ) < 27)
      linarith [h16, h27]
    -- the prediction entropy is strictly below log 2
    have hHval : explainer.entropyV (explainer.softmaxV explainer.predEx 2) 2
        = -((3 / 4) * Real.log (3 / 4) + (1 / 4) * Real.log (1 / 4)) := by
      unfold explainer.entropyV
      have hs : (∑ j ∈ Finset.range 2,
          explainer.softmaxV explainer.predEx 2 j) = 1 := by
        rw [Finset.sum_range_succ, Finset.sum_range_one, hsm0, hsm1]
        norm_num
      rw [hs]
      rw [Finset.sum_range_succ, Finset.sum_range_one, hsm0, hsm1]
      norm_num
    have hlog34 : Real.log (3 / 4) = Real.log 3 - Real.log 4 :=
      Real.log_div (by norm_num) (by norm_num)
    have hlog14 : Real.log ((1 : ℝ) / 4) = -Real.log 4 := by
      rw [show (1 : ℝ) / 4 = 4⁻¹ by norm_num, Real.log_inv]
    have hlog4 : Real.log 4 = 2 * Real.log 2 := by
      rw [show (4 : ℝ) = 2 ^ 2 by norm_num, Real.log_pow]
      push_cast
      ring
    have hHlt : explainer.entropyV (explainer.softmaxV explainer.predEx 2) 2
        < Real.log 2 := by
      rw [hHval, hlog34, hlog14, hlog4]
      linarith
    have halpha : explainer.alphaE explainer.emRelu explainer.predEx < 1 := by
      show explainer.entropyV (explainer.softmaxV explainer.predEx 2) 2
          / Real.log ((2 : ℕ) : ℝ) < 1
      rw [Nat.cast_ofNat]
      exact (div_lt_one (Real.log_pos one_lt_two)).mpr hHlt
    -- the code's term and the spec's term differ by (1-alpha)·D/2
    have hsdiff : explainer.predTermCode explainer.emRelu explainer.predEx
        - explainer.predTermSpec explainer.emRelu explainer.predEx
        = (1 - explainer.alphaE explainer.emRelu explainer.predEx)
            * explainer.distillationLoss explainer.emRelu explainer.predEx / 2 := by
      unfold explainer.predTermCode explainer.predTermSpec
      have hce : explainer.emRelu.coeffCe = 1 := rfl
      have hKn : explainer.emRelu.numClasses = 2 := rfl
      have hsumD : (∑ j ∈ Finset.range explainer.emRelu.numClasses,
          explainer.emRelu.initProbs j * explainer.logSoftmaxV explainer.predEx
            explainer.emRelu.numClasses j)
          = -explainer.distillationLoss explainer.emRelu explainer.predEx := by
        show _ = -explainer.distillationLoss explainer.emRelu explainer.predEx
        unfold explainer.distillationLoss
        ring
      rw [hce, hsumD, hKn]
      push_cast
      ring
    intro heq
    rw [heq, sub_self] at hsdiff
    have hpos : 0 < (1 - explainer.alphaE explainer.emRelu explainer.predEx)
        * explainer.distillationLoss explainer.emRelu explainer.predEx / 2 :=
      div_pos (mul_pos (by linarith) hDpos) (by norm_num)
    linarith [hsdiff, hpos]
